import Mathlib

/-!
Verification of the human-id identifier library.

The repository's `src/index.ts` composes an optional prefix with a base-62
encoding of the UTF-8 bytes of a UUID-v7 string.  The radix encoder
(`src/base62.ts`, re-exporting the `base-x` generic encoder; the base-58
variant uses `@scure/base`) is not part of the sources given here, so it is
modelled from the specification.  Byte sequences are `List Nat` with every
element below 256; machine strings are `String` / `List Char`.
-/

/-- Digits of `v` in base `base`, least-significant first, obtained by
repeatedly dividing by the base and keeping the remainder, exactly as the
spec's encode algorithm prescribes.  `fuel` bounds the recursion; every use
instantiates it with a value that is at least `v`, which suffices because the
quotient strictly decreases. -/
def digitsLE (base : Nat) : Nat → Nat → List Nat
  | 0, _ => []
  | _ + 1, 0 => []
  | fuel + 1, v + 1 => ((v + 1) % base) :: digitsLE base fuel ((v + 1) / base)

/-- Digits of `v` in base `base`, most-significant first (the reversal step of
the spec's encode algorithm). -/
def digitsBE (base v : Nat) : List Nat := (digitsLE base v v).reverse

/-- Value of a most-significant-first digit list: for each digit, multiply the
accumulator by the base and add the digit (the spec's decode algorithm). -/
def ofDigitsBE (base : Nat) (ds : List Nat) : Nat :=
  ds.foldl (fun acc d => acc * base + d) 0

/-- Value of a least-significant-first digit list (proof-side companion of
`ofDigitsBE`). -/
def ofDigitsLE (base : Nat) : List Nat → Nat
  | [] => 0
  | d :: ds => d + base * ofDigitsLE base ds

/-- Modelled from the spec: the decode error raised on a character outside the
configured alphabet (`src/base62.ts` is not among the given sources). -/
inductive DecodeError where
  | invalidCharacter
deriving DecidableEq

/-- Digit value of character `c` in `alphabet`: the index of its first
occurrence, or `none` when the character does not occur. -/
def charIndex (alphabet : List Char) (c : Char) : Option Nat :=
  match alphabet with
  | [] => none
  | a :: rest => if a = c then some 0 else (charIndex rest c).map (· + 1)

/-- Map every character of `text` to its digit value, failing when some
character is not in the alphabet. -/
def charsToDigits (alphabet : List Char) (text : List Char) : Option (List Nat) :=
  match text with
  | [] => some []
  | c :: cs =>
    match charIndex alphabet c, charsToDigits alphabet cs with
    | some d, some ds => some (d :: ds)
    | _, _ => none

/-- The alphabet's digit-0 character. -/
def zeroChar (alphabet : List Char) : Char := alphabet.getD 0 ' '

/-- Number of leading zero bytes of the input. -/
def countLeadingZeroBytes (bytes : List Nat) : Nat :=
  (bytes.takeWhile (fun b => b == 0)).length

/-- Minimal big-endian byte sequence of a non-negative integer (empty for 0). -/
def natToBytesBE (v : Nat) : List Nat := digitsBE 256 v

/-- Modelled from the spec: `encode` of the radix encoder (`src/base62.ts` /
`base-x`, not among the given sources).  The input bytes are read as a
big-endian unsigned integer, converted to base-`N` digits by repeated
division, each digit is mapped to its alphabet character, and one digit-0
character is prepended per leading zero byte. -/
def encode (alphabet : List Char) (bytes : List Nat) : List Char :=
  List.replicate (countLeadingZeroBytes bytes) (zeroChar alphabet) ++
    (digitsBE alphabet.length (ofDigitsBE 256 bytes)).map (fun d => alphabet.getD d ' ')

/-- Modelled from the spec: `decode` of the radix encoder.  Fails with
`InvalidCharacter` when some character is not in the alphabet; otherwise
counts the leading digit-0 characters `z`, converts the remaining characters
most-significant-first to an integer, converts that integer to a minimal
big-endian byte sequence, and prepends `z` zero bytes. -/
def decode (alphabet : List Char) (text : List Char) : Except DecodeError (List Nat) :=
  match charsToDigits alphabet text with
  | none => .error .invalidCharacter
  | some ds =>
    let z := (text.takeWhile (fun c => c == zeroChar alphabet)).length
    .ok (List.replicate z 0 ++ natToBytesBE (ofDigitsBE alphabet.length (ds.drop z)))

/-- The 62-character alphabet of `src/base62.ts`: digits, then lowercase, then
uppercase (README, "Base62 Encoding"). -/
def base62Alphabet : List Char :=
  "0123456789abcdefghijklmnopqrstuvwxyzABCDEFGHIJKLMNOPQRSTUVWXYZ".toList

/-- The 58-character alphabet of the `@scure/base` base-58 build variant
(Bitcoin alphabet; it excludes `0`, `O`, `I`, `l`). -/
def base58Alphabet : List Char :=
  "123456789ABCDEFGHJKLMNPQRSTUVWXYZabcdefghijkmnopqrstuvwxyz".toList

/-- Modelled from Node's `Buffer.from(string)`: the UTF-8 bytes of one
character. -/
def utf8Bytes (c : Char) : List Nat :=
  let n := c.toNat
  if n < 128 then [n]
  else if n < 2048 then [192 + n / 64, 128 + n % 64]
  else if n < 65536 then [224 + n / 4096, 128 + n / 64 % 64, 128 + n % 64]
  else [240 + n / 262144, 128 + n / 4096 % 64, 128 + n / 64 % 64, 128 + n % 64]

/-- UTF-8 bytes of a character list. -/
def utf8Encode (l : List Char) : List Nat := (l.map utf8Bytes).flatten

/-- Modelled from Node's `Buffer.from(string)`: the UTF-8 bytes of a string,
as applied to the string returned by `v7()` in `src/index.ts`. -/
def bufferFrom (s : String) : List Nat := utf8Encode s.data

/-- The composer of `src/index.ts`: `humanId` base-62-encodes the bytes of the
externally generated UUID string and prepends `prefix` plus an underscore
exactly when a prefix argument is present. -/
def humanId (pfx : Option String) (uuidStr : String) : String :=
  let encodedId := String.mk (encode base62Alphabet (bufferFrom uuidStr))
  match pfx with
  | some p => p ++ "_" ++ encodedId
  | none => encodedId

/-- Characters that can occur in a hyphenated lowercase-hex UUID string. -/
def uuidChars : List Char := "0123456789abcdef-".toList

/-- Modelled from the spec: the shape of the textual output of the external
UUID-v7 generator (`v7()` of the `uuid` package): a 36-character hyphenated
lowercase-hex string with hyphens at offsets 8, 13, 18 and 23, the version
character `7` at offset 14 and a variant character at offset 19. -/
def isUuidV7String (l : List Char) : Bool :=
  l.length == 36 &&
  l.all (fun c => uuidChars.contains c) &&
  l.getD 8 ' ' == '-' && l.getD 13 ' ' == '-' &&
  l.getD 18 ' ' == '-' && l.getD 23 ' ' == '-' &&
  l.getD 14 ' ' == '7' &&
  (l.getD 19 ' ' == '8' || l.getD 19 ' ' == '9' ||
   l.getD 19 ' ' == 'a' || l.getD 19 ' ' == 'b')

/-- Lexicographic less-or-equal on digit lists. -/
def lexLeNat : List Nat → List Nat → Bool
  | [], _ => true
  | _ :: _, [] => false
  | a :: as, b :: bs => if a < b then true else if b < a then false else lexLeNat as bs

/-- Ordinary character-code lexicographic less-or-equal on character lists. -/
def lexLeChars : List Char → List Char → Bool
  | [], _ => true
  | _ :: _, [] => false
  | a :: as, b :: bs => if a < b then true else if b < a then false else lexLeChars as bs

/-- The digit values underlying `encode`: `z` zero digits followed by the
base-`N` digits of the input value. -/
def digitString (alphabet : List Char) (bytes : List Nat) : List Nat :=
  List.replicate (countLeadingZeroBytes bytes) 0 ++
    digitsBE alphabet.length (ofDigitsBE 256 bytes)

/-- A concrete well-formed UUID-v7 string used to instantiate theorems. -/
def uuidExample : String := "0199a8fd-2a73-7012-8abc-0123456789ab"

theorem digitsLE_zero (base : Nat) : ∀ fuel, digitsLE base fuel 0 = [] := by
  intro fuel
  cases fuel <;> rfl

theorem digitsLE_succ (base fuel v : Nat) :
    digitsLE base (fuel + 1) (v + 1) =
      ((v + 1) % base) :: digitsLE base fuel ((v + 1) / base) := rfl

theorem ofDigitsLE_digitsLE (base : Nat) (hb : 2 ≤ base) :
    ∀ fuel v, v ≤ fuel → ofDigitsLE base (digitsLE base fuel v) = v := by
  intro fuel
  induction fuel with
  | zero =>
    intro v hv
    have : v = 0 := Nat.le_zero.mp hv
    subst this
    rfl
  | succ f ih =>
    intro v hv
    match v with
    | 0 => rw [digitsLE_zero]; rfl
    | w + 1 =>
      rw [digitsLE_succ, ofDigitsLE]
      have hdivlt : (w + 1) / base < w + 1 :=
        Nat.div_lt_self (Nat.succ_pos w) (lt_of_lt_of_le Nat.one_lt_two hb)
      have hdiv : (w + 1) / base ≤ f := by omega
      rw [ih ((w + 1) / base) hdiv]
      exact Nat.mod_add_div (w + 1) base

theorem digitsLE_lt_base (base : Nat) (hb : 1 ≤ base) :
    ∀ fuel v d, d ∈ digitsLE base fuel v → d < base := by
  intro fuel
  induction fuel with
  | zero => intro v d hd; simp [digitsLE] at hd
  | succ f ih =>
    intro v d hd
    match v with
    | 0 => rw [digitsLE_zero] at hd; simp at hd
    | w + 1 =>
      rw [digitsLE_succ] at hd
      rcases List.mem_cons.mp hd with h | h
      · subst h; exact Nat.mod_lt _ (by omega)
      · exact ih _ d h

theorem digitsLE_getLast_pos (base : Nat) (hb : 2 ≤ base) :
    ∀ fuel v, 0 < v → v ≤ fuel →
      ∀ d, (digitsLE base fuel v).getLast? = some d → 0 < d := by
  intro fuel
  induction fuel with
  | zero => intro v hv hvf; omega
  | succ f ih =>
    intro v hv hvf d hd
    obtain ⟨w, rfl⟩ : ∃ w, v = w + 1 := ⟨v - 1, by omega⟩
    rw [digitsLE_succ] at hd
    by_cases hq : (w + 1) / base = 0
    · have hlt : w + 1 < base := by
        rcases Nat.lt_or_ge (w + 1) base with h | h
        · exact h
        · exfalso
          have : 1 ≤ (w + 1) / base := (Nat.one_le_div_iff (by omega)).mpr h
          omega
      rw [hq, digitsLE_zero] at hd
      simp at hd
      have : (w + 1) % base = w + 1 := Nat.mod_eq_of_lt hlt
      omega
    · have hqpos : 0 < (w + 1) / base := Nat.pos_of_ne_zero hq
      have hqle : (w + 1) / base ≤ f := by
        have : (w + 1) / base < w + 1 :=
          Nat.div_lt_self (Nat.succ_pos w) (lt_of_lt_of_le Nat.one_lt_two hb)
        omega
      obtain ⟨f', rfl⟩ : ∃ f', f = f' + 1 := ⟨f - 1, by omega⟩
      obtain ⟨q', hq'⟩ : ∃ q', (w + 1) / base = q' + 1 := ⟨(w + 1) / base - 1, by omega⟩
      rw [hq', digitsLE_succ, List.getLast?_cons_cons] at hd
      apply ih ((w + 1) / base) hqpos hqle d
      rw [hq', digitsLE_succ]
      exact hd

theorem ofDigitsLE_pos (base : Nat) (hb : 1 ≤ base) :
    ∀ m : List Nat, m ≠ [] → (∀ d, m.getLast? = some d → 0 < d) →
      0 < ofDigitsLE base m := by
  intro m
  induction m with
  | nil => intro h; exact absurd rfl h
  | cons d rest ih =>
    intro _ hlast
    match rest with
    | [] =>
      have : 0 < d := hlast d rfl
      simp [ofDigitsLE]
      omega
    | r :: rs =>
      have hrest : 0 < ofDigitsLE base (r :: rs) := by
        apply ih (by simp)
        intro d' hd'
        exact hlast d' (by rw [List.getLast?_cons_cons]; exact hd')
      have hmul : 0 < base * ofDigitsLE base (r :: rs) := Nat.mul_pos (by omega) hrest
      show 0 < d + base * ofDigitsLE base (r :: rs)
      omega

theorem foldr_eq_ofDigitsLE (base : Nat) (m : List Nat) :
    m.foldr (fun a b => b * base + a) 0 = ofDigitsLE base m := by
  induction m with
  | nil => rfl
  | cons d t ih =>
    simp only [List.foldr_cons, ofDigitsLE, ih]
    ring

theorem ofDigitsBE_reverse (base : Nat) (m : List Nat) :
    ofDigitsBE base m.reverse = ofDigitsLE base m := by
  rw [ofDigitsBE, List.foldl_reverse]
  exact foldr_eq_ofDigitsLE base m

theorem ofDigitsBE_digitsBE (base : Nat) (hb : 2 ≤ base) (v : Nat) :
    ofDigitsBE base (digitsBE base v) = v := by
  rw [digitsBE, ofDigitsBE_reverse]
  exact ofDigitsLE_digitsLE base hb v v le_rfl

theorem digitsLE_ofDigitsLE (base : Nat) (hb : 2 ≤ base) :
    ∀ m : List Nat, (∀ d ∈ m, d < base) → (∀ d, m.getLast? = some d → 0 < d) →
      ∀ fuel, ofDigitsLE base m ≤ fuel → digitsLE base fuel (ofDigitsLE base m) = m := by
  intro m
  induction m with
  | nil =>
    intro _ _ fuel _
    show digitsLE base fuel 0 = []
    exact digitsLE_zero base fuel
  | cons d rest ih =>
    intro hlt hlast fuel hfuel
    match rest with
    | [] =>
      have hd0 : 0 < d := hlast d rfl
      have hdb : d < base := hlt d (by simp)
      have hval : ofDigitsLE base [d] = d := by simp [ofDigitsLE]
      rw [hval] at hfuel ⊢
      obtain ⟨f, rfl⟩ : ∃ f, fuel = f + 1 := ⟨fuel - 1, by omega⟩
      obtain ⟨w, rfl⟩ : ∃ w, d = w + 1 := ⟨d - 1, by omega⟩
      rw [digitsLE_succ, Nat.mod_eq_of_lt hdb, Nat.div_eq_of_lt hdb, digitsLE_zero]
    | r :: rs =>
      have hrpos : 0 < ofDigitsLE base (r :: rs) := by
        apply ofDigitsLE_pos base (by omega) _ (by simp)
        intro d' hd'
        exact hlast d' (by rw [List.getLast?_cons_cons]; exact hd')
      have hdb : d < base := hlt d (by simp)
      have hval : ofDigitsLE base (d :: r :: rs) =
          d + base * ofDigitsLE base (r :: rs) := rfl
      set R := ofDigitsLE base (r :: rs) with hR
      have h2R : 2 * R ≤ base * R := Nat.mul_le_mul_right R hb
      have hvpos : 0 < d + base * R := by omega
      rw [hval] at hfuel ⊢
      obtain ⟨f, rfl⟩ : ∃ f, fuel = f + 1 := ⟨fuel - 1, by omega⟩
      obtain ⟨w, hw⟩ : ∃ w, d + base * R = w + 1 := ⟨d + base * R - 1, by omega⟩
      rw [hw, digitsLE_succ, ← hw]
      have hmod : (d + base * R) % base = d := by
        rw [Nat.add_mul_mod_self_left, Nat.mod_eq_of_lt hdb]
      have hdiv : (d + base * R) / base = R := by
        rw [Nat.add_mul_div_left d R (by omega), Nat.div_eq_of_lt hdb]
        omega
      rw [hmod, hdiv]
      congr 1
      apply ih (fun x hx => hlt x (by simp [hx])) _ f (by omega)
      intro d' hd'
      exact hlast d' (by rw [List.getLast?_cons_cons]; exact hd')

theorem digitsBE_ofDigitsBE (base : Nat) (hb : 2 ≤ base) (l : List Nat)
    (hlt : ∀ d ∈ l, d < base) (hhead : ∀ d, l.head? = some d → 0 < d) :
    digitsBE base (ofDigitsBE base l) = l := by
  have h1 : ofDigitsBE base l = ofDigitsLE base l.reverse := by
    rw [← ofDigitsBE_reverse base l.reverse, List.reverse_reverse]
  rw [digitsBE, h1]
  rw [digitsLE_ofDigitsLE base hb l.reverse
      (fun d hd => hlt d (List.mem_reverse.mp hd))
      (fun d hd => hhead d (by rw [← List.getLast?_reverse]; exact hd))
      (ofDigitsLE base l.reverse) le_rfl]
  exact List.reverse_reverse l

theorem digitsBE_lt_base (base : Nat) (hb : 1 ≤ base) (v : Nat) :
    ∀ d ∈ digitsBE base v, d < base := by
  intro d hd
  exact digitsLE_lt_base base hb v v d (List.mem_reverse.mp hd)

theorem digitsBE_head_pos (base : Nat) (hb : 2 ≤ base) (v : Nat) (hv : 0 < v) :
    ∀ d, (digitsBE base v).head? = some d → 0 < d := by
  intro d hd
  rw [digitsBE, List.head?_reverse] at hd
  exact digitsLE_getLast_pos base hb v v hv le_rfl d hd

theorem digitsBE_zero (base : Nat) : digitsBE base 0 = [] := rfl

theorem digitsBE_ne_nil (base v : Nat) (hv : 0 < v) : digitsBE base v ≠ [] := by
  obtain ⟨w, rfl⟩ : ∃ w, v = w + 1 := ⟨v - 1, by omega⟩
  rw [digitsBE, digitsLE_succ]
  simp

theorem ofDigitsBE_foldl (base : Nat) : ∀ (l : List Nat) (a : Nat),
    l.foldl (fun acc d => acc * base + d) a = a * base ^ l.length + ofDigitsBE base l := by
  intro l
  induction l with
  | nil => intro a; simp [ofDigitsBE]
  | cons d t ih =>
    intro a
    have hcons : ofDigitsBE base (d :: t) = d * base ^ t.length + ofDigitsBE base t := by
      show (d :: t).foldl (fun acc d => acc * base + d) 0 = _
      rw [List.foldl_cons, ih (0 * base + d)]
      ring_nf
    rw [List.foldl_cons, ih (a * base + d), hcons, List.length_cons]
    ring

theorem ofDigitsBE_cons (base d : Nat) (t : List Nat) :
    ofDigitsBE base (d :: t) = d * base ^ t.length + ofDigitsBE base t := by
  show (d :: t).foldl (fun acc d => acc * base + d) 0 = _
  rw [List.foldl_cons, ofDigitsBE_foldl base t (0 * base + d)]
  ring_nf

theorem ofDigitsBE_lt (base : Nat) :
    ∀ l : List Nat, (∀ d ∈ l, d < base) → ofDigitsBE base l < base ^ l.length := by
  intro l
  induction l with
  | nil => intro _; simp [ofDigitsBE]
  | cons d t ih =>
    intro h
    rw [ofDigitsBE_cons, List.length_cons]
    have hd : d < base := h d (by simp)
    have ht : ofDigitsBE base t < base ^ t.length := ih (fun x hx => h x (by simp [hx]))
    calc d * base ^ t.length + ofDigitsBE base t
        < d * base ^ t.length + base ^ t.length := by omega
      _ = (d + 1) * base ^ t.length := by ring
      _ ≤ base * base ^ t.length := Nat.mul_le_mul_right _ (by omega)
      _ = base ^ (t.length + 1) := by ring

theorem foldl_replicate_zero (base : Nat) : ∀ z : Nat,
    (List.replicate z 0).foldl (fun acc d => acc * base + d) 0 = 0 := by
  intro z
  induction z with
  | zero => rfl
  | succ n ih =>
    show (List.replicate n 0).foldl (fun acc d => acc * base + d) (0 * base + 0) = 0
    simpa using ih

theorem ofDigitsBE_replicate_zero (base : Nat) (z : Nat) (l : List Nat) :
    ofDigitsBE base (List.replicate z 0 ++ l) = ofDigitsBE base l := by
  rw [ofDigitsBE, List.foldl_append, foldl_replicate_zero]
  rfl

theorem takeWhile_replicate_append {α : Type} (p : α → Bool) (a : α) (ha : p a = true) :
    ∀ (z : Nat) (l : List α), (∀ c, l.head? = some c → p c = false) →
      (List.replicate z a ++ l).takeWhile p = List.replicate z a := by
  intro z
  induction z with
  | zero =>
    intro l hl
    match l with
    | [] => rfl
    | c :: t =>
      have : p c = false := hl c rfl
      simp [List.takeWhile_cons, this]
  | succ n ih =>
    intro l hl
    show ((a :: (List.replicate n a ++ l)).takeWhile p) = a :: List.replicate n a
    rw [List.takeWhile_cons, if_pos ha, ih l hl]

theorem takeWhile_replicate_self {α : Type} (p : α → Bool) (a : α) (ha : p a = true) :
    ∀ z : Nat, (List.replicate z a).takeWhile p = List.replicate z a := by
  intro z
  have := takeWhile_replicate_append p a ha z [] (by intro c hc; simp at hc)
  simpa using this

theorem head_dropWhile_false {α : Type} (p : α → Bool) : ∀ (l : List α) (c : α),
    (l.dropWhile p).head? = some c → p c = false := by
  intro l
  induction l with
  | nil => intro c hc; simp [List.dropWhile] at hc
  | cons x xs ih =>
    intro c hc
    rw [List.dropWhile_cons] at hc
    by_cases hx : p x = true
    · simp [hx] at hc; exact ih c hc
    · simp [hx] at hc
      rw [← hc]
      simpa using hx

theorem bytes_split_zeros (bytes : List Nat) :
    bytes = List.replicate (countLeadingZeroBytes bytes) 0 ++
      bytes.dropWhile (fun b => b == 0) := by
  conv_lhs => rw [← List.takeWhile_append_dropWhile (fun b => b == 0) bytes]
  congr 1
  have h : ∀ b ∈ bytes.takeWhile (fun b => b == 0), b = 0 := by
    intro b hb
    have := List.mem_takeWhile_imp hb
    simpa using this
  exact List.eq_replicate_of_mem h

theorem head_dropZeros_pos (bytes : List Nat) :
    ∀ d, ((bytes.dropWhile (fun b => b == 0)).head? = some d) → 0 < d := by
  intro d hd
  have := head_dropWhile_false (fun b => b == 0) bytes d hd
  simp at this
  omega

theorem charIndex_getElem : ∀ (A : List Char), A.Nodup → ∀ i, (h : i < A.length) →
    charIndex A A[i] = some i := by
  intro A
  induction A with
  | nil => intro _ i h; simp at h
  | cons a rest ih =>
    intro hnd i h
    match i with
    | 0 => simp [charIndex]
    | i + 1 =>
      have hi : i < rest.length := by simpa using h
      have hmem : rest[i] ∈ rest := List.getElem_mem hi
      have hne : ¬ a = rest[i] := by
        intro he
        exact (List.nodup_cons.mp hnd).1 (he ▸ hmem)
      show charIndex (a :: rest) rest[i] = some (i + 1)
      rw [charIndex, if_neg hne, ih (List.nodup_cons.mp hnd).2 i hi]
      rfl

theorem charIndex_zeroChar (A : List Char) (hA : A ≠ []) :
    charIndex A (zeroChar A) = some 0 := by
  match A with
  | a :: rest => simp [charIndex, zeroChar]

theorem charIndex_eq_none_iff (A : List Char) (c : Char) :
    charIndex A c = none ↔ c ∉ A := by
  induction A with
  | nil => simp [charIndex]
  | cons a rest ih =>
    rw [charIndex]
    by_cases hac : a = c
    · simp [hac]
    · simp only [if_neg hac, Option.map_eq_none', ih, List.mem_cons]
      constructor
      · intro h hmem
        rcases hmem with h1 | h1
        · exact hac h1.symm
        · exact h h1
      · intro h
        exact fun hmem => h (Or.inr hmem)

theorem charsToDigits_append (A : List Char) : ∀ (t1 t2 : List Char) (d1 d2 : List Nat),
    charsToDigits A t1 = some d1 → charsToDigits A t2 = some d2 →
    charsToDigits A (t1 ++ t2) = some (d1 ++ d2) := by
  intro t1
  induction t1 with
  | nil =>
    intro t2 d1 d2 h1 h2
    simp [charsToDigits] at h1
    subst h1
    simpa using h2
  | cons c cs ih =>
    intro t2 d1 d2 h1 h2
    rw [charsToDigits] at h1
    match hc : charIndex A c, hcs : charsToDigits A cs with
    | some d, some ds =>
      rw [hc, hcs] at h1
      simp at h1
      subst h1
      show charsToDigits A (c :: (cs ++ t2)) = _
      rw [charsToDigits, hc, ih t2 ds d2 hcs h2]
      rfl
    | some d, none => rw [hc, hcs] at h1; simp at h1
    | none, some ds => rw [hc, hcs] at h1; simp at h1
    | none, none => rw [hc, hcs] at h1; simp at h1

theorem charsToDigits_replicate_zero (A : List Char) (hA : A ≠ []) :
    ∀ z : Nat, charsToDigits A (List.replicate z (zeroChar A)) =
      some (List.replicate z 0) := by
  intro z
  induction z with
  | zero => rfl
  | succ n ih =>
    show charsToDigits A (zeroChar A :: List.replicate n (zeroChar A)) = _
    rw [charsToDigits, charIndex_zeroChar A hA, ih]
    rfl

theorem charsToDigits_map_getD (A : List Char) (hnd : A.Nodup) :
    ∀ ds : List Nat, (∀ d ∈ ds, d < A.length) →
      charsToDigits A (ds.map (fun d => A.getD d ' ')) = some ds := by
  intro ds
  induction ds with
  | nil => intro _; rfl
  | cons d t ih =>
    intro h
    have hd : d < A.length := h d (by simp)
    show charsToDigits A (A.getD d ' ' :: t.map (fun d => A.getD d ' ')) = _
    rw [charsToDigits, List.getD_eq_getElem A ' ' hd, charIndex_getElem A hnd d hd,
      ih (fun x hx => h x (by simp [hx]))]

theorem mem_of_head_eq {α : Type} (l : List α) (a : α) (h : l.head? = some a) : a ∈ l := by
  match l with
  | [] => simp at h
  | x :: t =>
    simp at h
    simp [← h]

theorem zeroChar_mem (A : List Char) (hA : 0 < A.length) : zeroChar A ∈ A := by
  rw [zeroChar, List.getD_eq_getElem A ' ' hA]
  exact List.getElem_mem hA

theorem encode_mem (A : List Char) (hA : 0 < A.length) (bytes : List Nat) :
    ∀ c ∈ encode A bytes, c ∈ A := by
  intro c hc
  rw [encode] at hc
  rcases List.mem_append.mp hc with h | h
  · rw [List.eq_of_mem_replicate h]
    exact zeroChar_mem A hA
  · rcases List.mem_map.mp h with ⟨d, hd, rfl⟩
    have hdlt : d < A.length := digitsBE_lt_base A.length (by omega) _ d hd
    rw [List.getD_eq_getElem A ' ' hdlt]
    exact List.getElem_mem hdlt

theorem encode_eq_map (A : List Char) (bytes : List Nat) :
    encode A bytes = (digitString A bytes).map (fun d => A.getD d ' ') := by
  rw [encode, digitString, List.map_append, List.map_replicate]
  rfl

theorem ofDigitsBE_digitString (A : List Char) (hA : 2 ≤ A.length) (bytes : List Nat) :
    ofDigitsBE A.length (digitString A bytes) = ofDigitsBE 256 bytes := by
  rw [digitString, ofDigitsBE_replicate_zero, ofDigitsBE_digitsBE A.length hA]

theorem digitString_lt (A : List Char) (hA : 1 ≤ A.length) (bytes : List Nat) :
    ∀ d ∈ digitString A bytes, d < A.length := by
  intro d hd
  rw [digitString] at hd
  rcases List.mem_append.mp hd with h | h
  · rw [List.eq_of_mem_replicate h]; omega
  · exact digitsBE_lt_base A.length hA _ d h

theorem encode_ne_nil (A : List Char) (bytes : List Nat) (hB : bytes ≠ []) :
    encode A bytes ≠ [] := by
  rw [encode]
  intro h
  rcases List.append_eq_nil.mp h with ⟨h1, h2⟩
  have hz : countLeadingZeroBytes bytes = 0 := by
    have := congrArg List.length h1
    simpa using this
  match bytes, hB with
  | b :: rest, _ =>
    have hsplit := bytes_split_zeros (b :: rest)
    rw [hz] at hsplit
    simp only [List.replicate, List.nil_append] at hsplit
    have hhead : ((b :: rest).dropWhile (fun x => x == 0)).head? = some b := by
      rw [← hsplit]
      rfl
    have hbpos : 0 < b := head_dropZeros_pos (b :: rest) b hhead
    have hvpos : 0 < ofDigitsBE 256 (b :: rest) := by
      rw [ofDigitsBE_cons]
      have hpow : 0 < 256 ^ rest.length := Nat.pow_pos (by omega)
      have hmul : 1 * 1 ≤ b * 256 ^ rest.length := Nat.mul_le_mul hbpos hpow
      omega
    exact digitsBE_ne_nil A.length _ hvpos (List.map_eq_nil_iff.mp h2)

theorem drop_replicate_append {α : Type} : ∀ (n : Nat) (a : α) (l : List α),
    (List.replicate n a ++ l).drop n = l := by
  intro n
  induction n with
  | zero => intro a l; rfl
  | succ m ih =>
    intro a l
    show (List.replicate m a ++ l).drop m = l
    exact ih a l

theorem decode_encode (A : List Char) (hA : 2 ≤ A.length) (hnd : A.Nodup)
    (bytes : List Nat) (hb : ∀ b ∈ bytes, b < 256) :
    decode A (encode A bytes) = .ok bytes := by
  have hAne : A ≠ [] := by
    intro h
    rw [h] at hA
    simp at hA
  have hApos : 0 < A.length := by omega
  have hDlt : ∀ d ∈ digitsBE A.length (ofDigitsBE 256 bytes), d < A.length :=
    fun d hd => digitsBE_lt_base A.length (by omega) _ d hd
  have hcd : charsToDigits A (encode A bytes) =
      some (List.replicate (countLeadingZeroBytes bytes) 0 ++
        digitsBE A.length (ofDigitsBE 256 bytes)) :=
    charsToDigits_append A _ _ _ _
      (charsToDigits_replicate_zero A hAne _)
      (charsToDigits_map_getD A hnd _ hDlt)
  have hhead : ∀ c, ((digitsBE A.length (ofDigitsBE 256 bytes)).map
      (fun d => A.getD d ' ')).head? = some c → (c == zeroChar A) = false := by
    intro c hc
    rw [List.head?_map] at hc
    match hD0 : (digitsBE A.length (ofDigitsBE 256 bytes)).head? with
    | none => rw [hD0] at hc; simp at hc
    | some d0 =>
      rw [hD0] at hc
      simp only [Option.map_some'] at hc
      have hceq : A.getD d0 ' ' = c := by injection hc
      have hvpos : 0 < ofDigitsBE 256 bytes := by
        by_contra h0
        have hzero : ofDigitsBE 256 bytes = 0 := by omega
        rw [hzero, digitsBE_zero] at hD0
        simp at hD0
      have hd0pos : 0 < d0 := digitsBE_head_pos A.length hA _ hvpos d0 hD0
      have hd0lt : d0 < A.length :=
        digitsBE_lt_base A.length (by omega) _ d0 (mem_of_head_eq _ d0 hD0)
      rw [← hceq, zeroChar, List.getD_eq_getElem A ' ' hd0lt, List.getD_eq_getElem A ' ' hApos]
      rw [beq_eq_false_iff_ne]
      intro heq
      have h2 : A.get ⟨d0, hd0lt⟩ = A.get ⟨0, hApos⟩ := heq
      have h3 := (List.Nodup.get_inj_iff hnd).mp h2
      have : d0 = 0 := by simpa using h3
      omega
  have htw : (encode A bytes).takeWhile (fun c => c == zeroChar A) =
      List.replicate (countLeadingZeroBytes bytes) (zeroChar A) := by
    rw [encode]
    exact takeWhile_replicate_append _ _ (by simp) _ _ hhead
  rw [decode, hcd]
  simp only [htw, List.length_replicate]
  rw [drop_replicate_append, ofDigitsBE_digitsBE A.length hA]
  have hstrip : natToBytesBE (ofDigitsBE 256 bytes) =
      bytes.dropWhile (fun b => b == 0) := by
    rw [natToBytesBE]
    have h1 : ofDigitsBE 256 bytes =
        ofDigitsBE 256 (bytes.dropWhile (fun b => b == 0)) := by
      conv_lhs => rw [bytes_split_zeros bytes]
      exact ofDigitsBE_replicate_zero 256 _ _
    rw [h1]
    apply digitsBE_ofDigitsBE 256 (by omega)
    · intro d hd
      exact hb d ((List.dropWhile_sublist _).mem hd)
    · exact head_dropZeros_pos bytes
  rw [hstrip, ← bytes_split_zeros bytes]

theorem lexLeNat_iff (base : Nat) :
    ∀ (D1 D2 : List Nat), D1.length = D2.length →
      (∀ d ∈ D1, d < base) → (∀ d ∈ D2, d < base) →
      (lexLeNat D1 D2 = true ↔ ofDigitsBE base D1 ≤ ofDigitsBE base D2) := by
  intro D1
  induction D1 with
  | nil =>
    intro D2 hlen _ _
    have : D2 = [] := List.length_eq_zero.mp hlen.symm
    subst this
    simp [lexLeNat]
  | cons d1 t1 ih =>
    intro D2 hlen h1 h2
    match D2 with
    | [] => simp at hlen
    | d2 :: t2 =>
      have hk : t1.length = t2.length := by simpa using hlen
      have ht1 : ∀ d ∈ t1, d < base := fun x hx => h1 x (by simp [hx])
      have ht2 : ∀ d ∈ t2, d < base := fun x hx => h2 x (by simp [hx])
      have hw1 : ofDigitsBE base t1 < base ^ t1.length := ofDigitsBE_lt base t1 ht1
      have hw2 : ofDigitsBE base t2 < base ^ t1.length := by
        rw [hk]
        exact ofDigitsBE_lt base t2 ht2
      rw [ofDigitsBE_cons, ofDigitsBE_cons, ← hk]
      rcases lt_trichotomy d1 d2 with hlt | heq | hgt
      · have hmono : (d1 + 1) * base ^ t1.length ≤ d2 * base ^ t1.length :=
          Nat.mul_le_mul_right _ hlt
        have hub : d1 * base ^ t1.length + ofDigitsBE base t1 <
            (d1 + 1) * base ^ t1.length := by nlinarith [hw1]
        have hgoal : d1 * base ^ t1.length + ofDigitsBE base t1 ≤
            d2 * base ^ t1.length + ofDigitsBE base t2 := by omega
        simp [lexLeNat, if_pos hlt, hgoal]
      · subst heq
        rw [show lexLeNat (d1 :: t1) (d1 :: t2) = lexLeNat t1 t2 from by
          simp [lexLeNat]]
        rw [ih t2 hk ht1 ht2]
        omega
      · have hmono : (d2 + 1) * base ^ t1.length ≤ d1 * base ^ t1.length :=
          Nat.mul_le_mul_right _ hgt
        have hub : d2 * base ^ t1.length + ofDigitsBE base t2 <
            (d2 + 1) * base ^ t1.length := by nlinarith [hw2]
        have hv : ¬ (d1 * base ^ t1.length + ofDigitsBE base t1 ≤
            d2 * base ^ t1.length + ofDigitsBE base t2) := by omega
        have hnot : ¬ d1 < d2 := by omega
        simp [lexLeNat, if_neg hnot, if_pos hgt, hv]

theorem getElem_lt_of_pairwise (A : List Char) (hs : A.Pairwise (· < ·))
    (i j : Nat) (hi : i < A.length) (hj : j < A.length) (hij : i < j) :
    A[i] < A[j] := by
  have := List.pairwise_iff_get.mp hs ⟨i, hi⟩ ⟨j, hj⟩ hij
  exact this

theorem lexLeChars_map (A : List Char) (hs : A.Pairwise (· < ·)) :
    ∀ (D1 D2 : List Nat), (∀ d ∈ D1, d < A.length) → (∀ d ∈ D2, d < A.length) →
      lexLeChars (D1.map (fun d => A.getD d ' ')) (D2.map (fun d => A.getD d ' ')) =
        lexLeNat D1 D2 := by
  intro D1
  induction D1 with
  | nil =>
    intro D2 _ _
    match D2 with
    | [] => rfl
    | d2 :: t2 => rfl
  | cons d1 t1 ih =>
    intro D2 h1 h2
    match D2 with
    | [] => rfl
    | d2 :: t2 =>
      have hd1 : d1 < A.length := h1 d1 (by simp)
      have hd2 : d2 < A.length := h2 d2 (by simp)
      have ht1 : ∀ d ∈ t1, d < A.length := fun x hx => h1 x (by simp [hx])
      have ht2 : ∀ d ∈ t2, d < A.length := fun x hx => h2 x (by simp [hx])
      show (if A.getD d1 ' ' < A.getD d2 ' ' then true
        else if A.getD d2 ' ' < A.getD d1 ' ' then false
        else lexLeChars (t1.map (fun d => A.getD d ' ')) (t2.map (fun d => A.getD d ' '))) =
        (if d1 < d2 then true else if d2 < d1 then false else lexLeNat t1 t2)
      rw [List.getD_eq_getElem A ' ' hd1, List.getD_eq_getElem A ' ' hd2]
      rcases lt_trichotomy d1 d2 with hlt | heq | hgt
      · have hc : A[d1] < A[d2] := getElem_lt_of_pairwise A hs d1 d2 hd1 hd2 hlt
        rw [if_pos hc, if_pos hlt]
      · subst heq
        have hc : ¬ A[d1] < A[d1] := lt_irrefl _
        rw [if_neg hc, if_neg hc, if_neg (lt_irrefl d1), if_neg (lt_irrefl d1)]
        exact ih t2 ht1 ht2
      · have hc : A[d2] < A[d1] := getElem_lt_of_pairwise A hs d2 d1 hd2 hd1 hgt
        have hc1 : ¬ A[d1] < A[d2] := lt_asymm hc
        have hn1 : ¬ d1 < d2 := by omega
        rw [if_neg hc1, if_pos hc, if_neg hn1, if_pos hgt]

theorem split_last_underscore :
    ∀ (p1 p2 e1 e2 : List Char), ('_' ∉ e1) → ('_' ∉ e2) →
      p1 ++ '_' :: e1 = p2 ++ '_' :: e2 → p1 = p2 ∧ e1 = e2 := by
  intro p1
  induction p1 with
  | nil =>
    intro p2 e1 e2 h1 h2 heq
    match p2 with
    | [] =>
      simp at heq
      exact ⟨rfl, heq⟩
    | x :: t =>
      simp at heq
      exfalso
      apply h1
      rw [heq.2]
      exact List.mem_append_right t (by simp)
  | cons x t ih =>
    intro p2 e1 e2 h1 h2 heq
    match p2 with
    | [] =>
      simp at heq
      exfalso
      apply h2
      rw [← heq.2]
      exact List.mem_append_right t (by simp)
    | y :: t2 =>
      simp at heq
      obtain ⟨hxy, hrest⟩ := heq
      obtain ⟨hp, he⟩ := ih t2 e1 e2 h1 h2 hrest
      exact ⟨by rw [hxy, hp], he⟩

theorem string_data_inj (s t : String) (h : s.data = t.data) : s = t :=
  String.ext h

theorem utf8Bytes_ascii (c : Char) (h : c.toNat < 128) : utf8Bytes c = [c.toNat] := by
  simp [utf8Bytes, h]

theorem utf8Encode_ascii : ∀ l : List Char, (∀ c ∈ l, c.toNat < 128) →
    utf8Encode l = l.map Char.toNat := by
  intro l
  induction l with
  | nil => intro _; rfl
  | cons c t ih =>
    intro h
    show (utf8Bytes c :: t.map utf8Bytes).flatten = c.toNat :: t.map Char.toNat
    rw [List.flatten_cons, utf8Bytes_ascii c (h c (by simp)),
      show (t.map utf8Bytes).flatten = utf8Encode t from rfl,
      ih (fun x hx => h x (by simp [hx]))]
    rfl

theorem isUuidV7String_spec (l : List Char) (h : isUuidV7String l = true) :
    l.length = 36 ∧ (∀ c ∈ l, c ∈ uuidChars) ∧
    l.getD 8 ' ' = '-' ∧ l.getD 13 ' ' = '-' ∧ l.getD 18 ' ' = '-' ∧
    l.getD 23 ' ' = '-' := by
  rw [isUuidV7String] at h
  simp only [Bool.and_eq_true, Bool.or_eq_true, beq_iff_eq, List.all_eq_true] at h
  obtain ⟨⟨⟨⟨⟨⟨⟨hlen, hall⟩, h8⟩, h13⟩, h18⟩, h23⟩, h14⟩, h19⟩ := h
  refine ⟨hlen, ?_, h8, h13, h18, h23⟩
  intro c hc
  exact List.elem_iff.mp (hall c hc)

theorem uuidChars_ascii : ∀ c ∈ uuidChars, c.toNat < 128 := by decide

theorem uuid_bufferFrom (s : String) (h : isUuidV7String s.data = true) :
    bufferFrom s = s.data.map Char.toNat := by
  obtain ⟨hlen, hall, _⟩ := isUuidV7String_spec s.data h
  exact utf8Encode_ascii s.data (fun c hc => uuidChars_ascii c (hall c hc))

theorem uuid_bytes_lt (s : String) (h : isUuidV7String s.data = true) :
    ∀ b ∈ bufferFrom s, b < 256 := by
  rw [uuid_bufferFrom s h]
  intro b hb
  rcases List.mem_map.mp hb with ⟨c, hc, rfl⟩
  have := uuidChars_ascii c ((isUuidV7String_spec s.data h).2.1 c hc)
  omega

theorem map_ofNat_toNat (l : List Char) : (l.map Char.toNat).map Char.ofNat = l := by
  rw [List.map_map]
  have hco : (Char.ofNat ∘ Char.toNat) = id := by
    funext c
    exact Char.ofNat_toNat c
  rw [hco, List.map_id]

theorem uuid_hyphens (s : String) (h : isUuidV7String s.data = true) :
    (bufferFrom s)[8]? = some 45 ∧ (bufferFrom s)[13]? = some 45 ∧
    (bufferFrom s)[18]? = some 45 ∧ (bufferFrom s)[23]? = some 45 := by
  obtain ⟨hlen, hall, h8, h13, h18, h23⟩ := isUuidV7String_spec s.data h
  rw [uuid_bufferFrom s h]
  have hidx : ∀ i : Nat, i < 36 → s.data.getD i ' ' = '-' →
      (s.data.map Char.toNat)[i]? = some 45 := by
    intro i hi hd
    have hilen : i < s.data.length := by omega
    rw [List.getElem?_map, List.getElem?_eq_getElem hilen]
    rw [List.getD_eq_getElem s.data ' ' hilen] at hd
    rw [hd]
    rfl
  exact ⟨hidx 8 (by omega) h8, hidx 13 (by omega) h13,
    hidx 18 (by omega) h18, hidx 23 (by omega) h23⟩

theorem humanId_none_data (s : String) :
    (humanId none s).data = encode base62Alphabet (bufferFrom s) := rfl

theorem humanId_some_data (p s : String) :
    (humanId (some p) s).data = p.data ++ '_' :: encode base62Alphabet (bufferFrom s) := by
  show (p ++ "_" ++ String.mk (encode base62Alphabet (bufferFrom s))).data = _
  rw [String.data_append, String.data_append]
  rw [show "_".data = ['_'] from rfl]
  simp

theorem charsToDigits_some_of_mem (A : List Char) :
    ∀ text : List Char, (∀ c ∈ text, c ∈ A) → ∃ ds, charsToDigits A text = some ds := by
  intro text
  induction text with
  | nil => intro _; exact ⟨[], rfl⟩
  | cons c cs ih =>
    intro h
    obtain ⟨ds, hds⟩ := ih (fun x hx => h x (by simp [hx]))
    have hcA : c ∈ A := h c (by simp)
    have hci : charIndex A c ≠ none :=
      fun hn => ((charIndex_eq_none_iff A c).mp hn) hcA
    match hcc : charIndex A c with
    | none => exact absurd hcc hci
    | some d =>
      refine ⟨d :: ds, ?_⟩
      rw [charsToDigits, hcc, hds]

theorem charsToDigits_none_of_not_mem (A : List Char) :
    ∀ text : List Char, (∃ c ∈ text, c ∉ A) → charsToDigits A text = none := by
  intro text
  induction text with
  | nil =>
    intro h
    obtain ⟨c, hc, _⟩ := h
    simp at hc
  | cons c cs ih =>
    intro h
    obtain ⟨x, hx, hxA⟩ := h
    rcases List.mem_cons.mp hx with h1 | h1
    · subst h1
      have hnone : charIndex A x = none := (charIndex_eq_none_iff A x).mpr hxA
      rw [charsToDigits, hnone]
    · rw [charsToDigits, ih ⟨x, h1, hxA⟩]
      cases charIndex A c <;> rfl

theorem decode_error_iff (A : List Char) (text : List Char) :
    decode A text = .error .invalidCharacter ↔ ∃ c ∈ text, c ∉ A := by
  constructor
  · intro h
    by_contra hn
    push_neg at hn
    obtain ⟨ds, hds⟩ := charsToDigits_some_of_mem A text hn
    rw [decode, hds] at h
    simp at h
  · intro h
    rw [decode, charsToDigits_none_of_not_mem A text h]

theorem decode_ok_of_mem (A : List Char) (text : List Char) (h : ∀ c ∈ text, c ∈ A) :
    ∃ bs, decode A text = .ok bs := by
  obtain ⟨ds, hds⟩ := charsToDigits_some_of_mem A text h
  exact ⟨_, by rw [decode, hds]⟩

theorem encode_monotone_digits (A : List Char) (hA : 2 ≤ A.length)
    (b1 b2 : List Nat) (hv : ofDigitsBE 256 b1 ≤ ofDigitsBE 256 b2)
    (hlen : (encode A b1).length = (encode A b2).length) :
    lexLeNat (digitString A b1) (digitString A b2) = true := by
  have e1 := congrArg List.length (encode_eq_map A b1)
  have e2 := congrArg List.length (encode_eq_map A b2)
  rw [List.length_map] at e1 e2
  have hlen' : (digitString A b1).length = (digitString A b2).length := by omega
  rw [lexLeNat_iff A.length _ _ hlen'
    (digitString_lt A (by omega) b1) (digitString_lt A (by omega) b2)]
  rw [ofDigitsBE_digitString A hA, ofDigitsBE_digitString A hA]
  exact hv

theorem encode_monotone_chars (A : List Char) (hA : 2 ≤ A.length)
    (hs : A.Pairwise (· < ·))
    (b1 b2 : List Nat) (hv : ofDigitsBE 256 b1 ≤ ofDigitsBE 256 b2)
    (hlen : (encode A b1).length = (encode A b2).length) :
    lexLeChars (encode A b1) (encode A b2) = true := by
  rw [encode_eq_map, encode_eq_map,
    lexLeChars_map A hs _ _ (digitString_lt A (by omega) b1) (digitString_lt A (by omega) b2)]
  exact encode_monotone_digits A hA b1 b2 hv hlen

theorem encode_replicate_zero (A : List Char) (L : Nat) :
    encode A (List.replicate L 0) = List.replicate L (zeroChar A) := by
  rw [encode]
  have hz : countLeadingZeroBytes (List.replicate L 0) = L := by
    rw [countLeadingZeroBytes, takeWhile_replicate_self _ 0 (by simp) L,
      List.length_replicate]
  have hv : ofDigitsBE 256 (List.replicate L 0) = 0 := by
    have h0 := ofDigitsBE_replicate_zero 256 L []
    simpa using h0
  rw [hz, hv, digitsBE_zero]
  simp

theorem decode_replicate_zeroChar (A : List Char) (hA : A ≠ []) (L : Nat) :
    decode A (List.replicate L (zeroChar A)) = .ok (List.replicate L 0) := by
  rw [decode, charsToDigits_replicate_zero A hA L]
  rw [takeWhile_replicate_self (fun c => c == zeroChar A) (zeroChar A) (by simp) L,
    List.length_replicate]
  show Except.ok (List.replicate L 0 ++
      natToBytesBE (ofDigitsBE A.length ((List.replicate L 0).drop L))) =
    Except.ok (List.replicate L 0)
  rw [show (List.replicate L (0 : Nat)).drop L = [] from by
    have hd := drop_replicate_append L (0 : Nat) []
    rw [List.append_nil] at hd
    exact hd]
  rw [show ofDigitsBE A.length [] = 0 from rfl, natToBytesBE, digitsBE_zero,
    List.append_nil]

/-- Claim C1: for every byte sequence `b` of length 0 through 32 (including
all-zero and all-0xFF), `decode (encode b A) A` returns exactly `b`, equal in
both length and value, for both the 58- and the 62-character alphabet. -/
theorem claim_C1 (bytes : List Nat) (_hlen : bytes.length ≤ 32)
    (hb : ∀ b ∈ bytes, b < 256) :
    decode base58Alphabet (encode base58Alphabet bytes) = .ok bytes ∧
    decode base62Alphabet (encode base62Alphabet bytes) = .ok bytes :=
  ⟨decode_encode base58Alphabet (by decide) (by decide) bytes hb,
   decode_encode base62Alphabet (by decide) (by decide) bytes hb⟩

/-- Witness for claim C1 at the concrete byte sequence `[0, 0, 255]`. -/
theorem claim_C1_witness :
    decode base58Alphabet (encode base58Alphabet [0, 0, 255]) = .ok [0, 0, 255] ∧
    decode base62Alphabet (encode base62Alphabet [0, 0, 255]) = .ok [0, 0, 255] :=
  claim_C1 [0, 0, 255] (by decide) (by decide)

/-- Claim C2: with no prefix the composer returns the encoded string
unmodified, and with a prefix `p` (including the empty string) it returns
exactly `p` followed by a single underscore followed by the encoded string. -/
theorem claim_C2 (s : String) (p : String) :
    (humanId none s).data = encode base62Alphabet (bufferFrom s) ∧
    (humanId (some p) s).data =
      p.data ++ '_' :: encode base62Alphabet (bufferFrom s) :=
  ⟨humanId_none_data s, humanId_some_data p s⟩

/-- Counterexample to claim C3: the bytes handed to the encoder are the UTF-8
bytes of the 36-character UUID string, so their count is 36, not 16. -/
theorem claim_C3_counterexample :
    isUuidV7String uuidExample.data = true ∧
    (bufferFrom uuidExample).length = 36 ∧
    ¬ (bufferFrom uuidExample).length = 16 :=
  ⟨by decide, by decide, by decide⟩

/-- Claim C3 (amended): the byte sequence passed to the radix encoder is the
UTF-8 encoding of the 36-character hyphenated UUID string and has length
exactly 36 (not 16); decoding the encoded portion yields exactly those 36
bytes. -/
theorem claim_C3 (s : String) (h : isUuidV7String s.data = true) :
    (bufferFrom s).length = 36 ∧
    decode base62Alphabet (encode base62Alphabet (bufferFrom s)) =
      .ok (bufferFrom s) := by
  constructor
  · rw [uuid_bufferFrom s h, List.length_map]
    exact (isUuidV7String_spec s.data h).1
  · exact decode_encode base62Alphabet (by decide) (by decide) _ (uuid_bytes_lt s h)

/-- Witness for claim C3 at the concrete UUID string `uuidExample`. -/
theorem claim_C3_witness :
    (bufferFrom uuidExample).length = 36 ∧
    decode base62Alphabet (encode base62Alphabet (bufferFrom uuidExample)) =
      .ok (bufferFrom uuidExample) :=
  claim_C3 uuidExample (by decide)

/-- Counterexample to claim C4: under ordinary character-code comparison the
62-character alphabet (digits, then lowercase, then uppercase) is not
monotone: the one-byte inputs 10 and 36 encode to `"a"` and `"A"`, equal in
length and in increasing numeric order, yet `"a" > "A"` by character code. -/
theorem claim_C4_counterexample :
    ofDigitsBE 256 [10] ≤ ofDigitsBE 256 [36] ∧
    (encode base62Alphabet [10]).length = (encode base62Alphabet [36]).length ∧
    lexLeChars (encode base62Alphabet [10]) (encode base62Alphabet [36]) = false :=
  ⟨by decide, by decide, by decide⟩

/-- Claim C4 (amended): for equal-length encodings of inputs in increasing
big-endian numeric order, the 58-character alphabet is monotone under
ordinary character-code string comparison; the 62-character alphabet is
monotone under the alphabet's own digit-value order on the encoded digit
string (not under character codes, as the counterexample shows). -/
theorem claim_C4 :
    (∀ b1 b2 : List Nat, ofDigitsBE 256 b1 ≤ ofDigitsBE 256 b2 →
      (encode base58Alphabet b1).length = (encode base58Alphabet b2).length →
      lexLeChars (encode base58Alphabet b1) (encode base58Alphabet b2) = true) ∧
    (∀ b1 b2 : List Nat, ofDigitsBE 256 b1 ≤ ofDigitsBE 256 b2 →
      (encode base62Alphabet b1).length = (encode base62Alphabet b2).length →
      lexLeNat (digitString base62Alphabet b1) (digitString base62Alphabet b2) = true) :=
  ⟨fun b1 b2 hv hl =>
    encode_monotone_chars base58Alphabet (by decide) (by decide) b1 b2 hv hl,
   fun b1 b2 hv hl => encode_monotone_digits base62Alphabet (by decide) b1 b2 hv hl⟩

/-- Witness for claim C4 at the concrete one-byte inputs 1 and 2. -/
theorem claim_C4_witness :
    lexLeChars (encode base58Alphabet [1]) (encode base58Alphabet [2]) = true ∧
    lexLeNat (digitString base62Alphabet [1]) (digitString base62Alphabet [2]) = true :=
  ⟨claim_C4.1 [1] [2] (by decide) (by decide),
   claim_C4.2 [1] [2] (by decide) (by decide)⟩

/-- Claim C5: for every length `L`, encoding `L` zero bytes yields exactly `L`
repetitions of the alphabet's digit-0 character (`'1'` for the 58-alphabet,
`'0'` for the 62-alphabet; the empty string for `L = 0`), and decoding that
string yields exactly `L` zero bytes. -/
theorem claim_C5 (L : Nat) :
    (encode base58Alphabet (List.replicate L 0) = List.replicate L '1' ∧
     decode base58Alphabet (List.replicate L '1') = .ok (List.replicate L 0)) ∧
    (encode base62Alphabet (List.replicate L 0) = List.replicate L '0' ∧
     decode base62Alphabet (List.replicate L '0') = .ok (List.replicate L 0)) := by
  have h58 : zeroChar base58Alphabet = '1' := by decide
  have h62 : zeroChar base62Alphabet = '0' := by decide
  refine ⟨⟨?_, ?_⟩, ?_, ?_⟩
  · rw [encode_replicate_zero base58Alphabet L, h58]
  · rw [← h58]
    exact decode_replicate_zeroChar base58Alphabet (by decide) L
  · rw [encode_replicate_zero base62Alphabet L, h62]
  · rw [← h62]
    exact decode_replicate_zeroChar base62Alphabet (by decide) L

/-- Claim C6: every character of an encoding lies in the alphabet used; hence
in the radix-62 build `humanId` with prefix `"user"` matches
`^user_[A-Za-z0-9]+$`, the no-prefix output contains no underscore, and the
empty-prefix output starts with an underscore. -/
theorem claim_C6 :
    (∀ bytes : List Nat, ∀ c ∈ encode base58Alphabet bytes, c ∈ base58Alphabet) ∧
    (∀ bytes : List Nat, ∀ c ∈ encode base62Alphabet bytes, c ∈ base62Alphabet) ∧
    (∀ s : String, isUuidV7String s.data = true →
      (humanId (some "user") s).data =
        "user".data ++ '_' :: encode base62Alphabet (bufferFrom s) ∧
      encode base62Alphabet (bufferFrom s) ≠ [] ∧
      (∀ c ∈ encode base62Alphabet (bufferFrom s), (c.isAlpha || c.isDigit) = true) ∧
      '_' ∉ (humanId none s).data ∧
      (humanId (some "") s).data.head? = some '_') := by
  refine ⟨fun bytes => encode_mem base58Alphabet (by decide) bytes,
          fun bytes => encode_mem base62Alphabet (by decide) bytes, ?_⟩
  intro s h
  have hne : bufferFrom s ≠ [] := by
    have hl : (bufferFrom s).length = 36 := by
      rw [uuid_bufferFrom s h, List.length_map]
      exact (isUuidV7String_spec s.data h).1
    intro hnil
    rw [hnil] at hl
    simp at hl
  refine ⟨humanId_some_data "user" s, encode_ne_nil base62Alphabet _ hne, ?_, ?_, ?_⟩
  · intro c hc
    have hmem := encode_mem base62Alphabet (by decide) _ c hc
    have halpha : ∀ c ∈ base62Alphabet, (c.isAlpha || c.isDigit) = true := by decide
    exact halpha c hmem
  · rw [humanId_none_data]
    intro hu
    have hmem := encode_mem base62Alphabet (by decide) _ '_' hu
    have hnu : '_' ∉ base62Alphabet := by decide
    exact hnu hmem
  · rw [humanId_some_data "" s]
    rfl

/-- Witness for claim C6 at the one-byte input `[0]` and the concrete UUID
string `uuidExample`. -/
theorem claim_C6_witness :
    '1' ∈ base58Alphabet ∧
    ((humanId (some "user") uuidExample).data =
      "user".data ++ '_' :: encode base62Alphabet (bufferFrom uuidExample) ∧
     encode base62Alphabet (bufferFrom uuidExample) ≠ [] ∧
     (∀ c ∈ encode base62Alphabet (bufferFrom uuidExample),
       (c.isAlpha || c.isDigit) = true) ∧
     '_' ∉ (humanId none uuidExample).data ∧
     (humanId (some "") uuidExample).data.head? = some '_') :=
  ⟨claim_C6.1 [0] '1' (by decide), claim_C6.2.2 uuidExample (by decide)⟩

/-- Claim C7: `decode` fails with `InvalidCharacter` exactly when some
character of the input is outside the alphabet, and succeeds with a byte
sequence whenever every character is in the alphabet, for both alphabets. -/
theorem claim_C7 (text : List Char) :
    ((decode base58Alphabet text = .error .invalidCharacter ↔
        ∃ c ∈ text, c ∉ base58Alphabet) ∧
     ((∀ c ∈ text, c ∈ base58Alphabet) →
        ∃ bs, decode base58Alphabet text = .ok bs)) ∧
    ((decode base62Alphabet text = .error .invalidCharacter ↔
        ∃ c ∈ text, c ∉ base62Alphabet) ∧
     ((∀ c ∈ text, c ∈ base62Alphabet) →
        ∃ bs, decode base62Alphabet text = .ok bs)) :=
  ⟨⟨decode_error_iff base58Alphabet text, decode_ok_of_mem base58Alphabet text⟩,
   ⟨decode_error_iff base62Alphabet text, decode_ok_of_mem base62Alphabet text⟩⟩

/-- Witness for claim C7: decoding `"!"` fails with `InvalidCharacter` and
decoding `"0"` succeeds, over the 62-alphabet. -/
theorem claim_C7_witness :
    decode base62Alphabet ['!'] = .error .invalidCharacter ∧
    (∃ bs, decode base62Alphabet ['0'] = .ok bs) :=
  ⟨((claim_C7 ['!']).2.1).mpr ⟨'!', by decide, by decide⟩,
   (claim_C7 ['0']).2.2 (by decide)⟩

/-- Claim C8: viewing the externally generated UUID string as an input, the
composer and the encoder are pure functions: equal raw values and equal
prefix arguments always produce identical outputs. -/
theorem claim_C8 (s1 s2 : String) (p1 p2 : Option String)
    (hs : s1 = s2) (hp : p1 = p2) :
    humanId p1 s1 = humanId p2 s2 ∧
    encode base62Alphabet (bufferFrom s1) = encode base62Alphabet (bufferFrom s2) := by
  subst hs
  subst hp
  exact ⟨rfl, rfl⟩

/-- Witness for claim C8 at the concrete UUID string `uuidExample` and prefix
`"user"`. -/
theorem claim_C8_witness :
    humanId (some "user") uuidExample = humanId (some "user") uuidExample ∧
    encode base62Alphabet (bufferFrom uuidExample) =
      encode base62Alphabet (bufferFrom uuidExample) :=
  claim_C8 uuidExample uuidExample (some "user") (some "user") rfl rfl

/-- Claim C9: the byte sequence that gets encoded is the UTF-8 encoding of the
36-character hyphenated UUID string returned by the generator — 36 bytes with
the hyphen byte 0x2D (45) at offsets 8, 13, 18 and 23, not a 16-byte binary
value — and decoding the encoded portion and reading the bytes as ASCII
yields back a valid UUID-v7 string. -/
theorem claim_C9 (s : String) (h : isUuidV7String s.data = true) :
    bufferFrom s = s.data.map Char.toNat ∧
    (bufferFrom s).length = 36 ∧
    ¬ (bufferFrom s).length = 16 ∧
    (bufferFrom s)[8]? = some 45 ∧ (bufferFrom s)[13]? = some 45 ∧
    (bufferFrom s)[18]? = some 45 ∧ (bufferFrom s)[23]? = some 45 ∧
    decode base62Alphabet (encode base62Alphabet (bufferFrom s)) =
      .ok (bufferFrom s) ∧
    (bufferFrom s).map Char.ofNat = s.data ∧
    isUuidV7String ((bufferFrom s).map Char.ofNat) = true := by
  have hbuf := uuid_bufferFrom s h
  have hlen : (bufferFrom s).length = 36 := by
    rw [hbuf, List.length_map]
    exact (isUuidV7String_spec s.data h).1
  obtain ⟨h8, h13, h18, h23⟩ := uuid_hyphens s h
  have hmap : (bufferFrom s).map Char.ofNat = s.data := by
    rw [hbuf]
    exact map_ofNat_toNat s.data
  refine ⟨hbuf, hlen, by omega, h8, h13, h18, h23, ?_, hmap, ?_⟩
  · exact decode_encode base62Alphabet (by decide) (by decide) _ (uuid_bytes_lt s h)
  · rw [hmap]
    exact h

/-- Witness for claim C9 at the concrete UUID string `uuidExample`. -/
theorem claim_C9_witness :
    bufferFrom uuidExample = uuidExample.data.map Char.toNat ∧
    (bufferFrom uuidExample).length = 36 ∧
    ¬ (bufferFrom uuidExample).length = 16 ∧
    (bufferFrom uuidExample)[8]? = some 45 ∧ (bufferFrom uuidExample)[13]? = some 45 ∧
    (bufferFrom uuidExample)[18]? = some 45 ∧ (bufferFrom uuidExample)[23]? = some 45 ∧
    decode base62Alphabet (encode base62Alphabet (bufferFrom uuidExample)) =
      .ok (bufferFrom uuidExample) ∧
    (bufferFrom uuidExample).map Char.ofNat = uuidExample.data ∧
    isUuidV7String ((bufferFrom uuidExample).map Char.ofNat) = true :=
  claim_C9 uuidExample (by decide)

/-- Claim C10: because an encoded portion never contains an underscore, the
map from a prefix and an underscore-free non-empty encoded part to
`prefix ++ "_" ++ encoded` is injective — the pair is recoverable by
splitting at the last underscore — and consequently two prefixed `humanId`
outputs are equal only when both the prefixes and the encoded portions
agree. -/
theorem claim_C10 :
    (∀ p1 p2 e1 e2 : List Char, e1 ≠ [] → e2 ≠ [] → '_' ∉ e1 → '_' ∉ e2 →
      p1 ++ '_' :: e1 = p2 ++ '_' :: e2 → p1 = p2 ∧ e1 = e2) ∧
    (∀ (s1 s2 q1 q2 : String), humanId (some q1) s1 = humanId (some q2) s2 →
      q1 = q2 ∧
      encode base62Alphabet (bufferFrom s1) = encode base62Alphabet (bufferFrom s2)) := by
  constructor
  · intro p1 p2 e1 e2 _ _ h1 h2 heq
    exact split_last_underscore p1 p2 e1 e2 h1 h2 heq
  · intro s1 s2 q1 q2 heq
    have hdata := congrArg String.data heq
    rw [humanId_some_data q1 s1, humanId_some_data q2 s2] at hdata
    have hnu : '_' ∉ base62Alphabet := by decide
    have hu1 : '_' ∉ encode base62Alphabet (bufferFrom s1) := fun hu =>
      hnu (encode_mem base62Alphabet (by decide) _ '_' hu)
    have hu2 : '_' ∉ encode base62Alphabet (bufferFrom s2) := fun hu =>
      hnu (encode_mem base62Alphabet (by decide) _ '_' hu)
    obtain ⟨hp, he⟩ := split_last_underscore _ _ _ _ hu1 hu2 hdata
    exact ⟨string_data_inj q1 q2 hp, he⟩

/-- Witness for claim C10 at concrete prefixes and encoded parts. -/
theorem claim_C10_witness :
    (['a'] = ['a'] ∧ ['b'] = ['b']) ∧
    ("u" = "u" ∧
      encode base62Alphabet (bufferFrom "x") = encode base62Alphabet (bufferFrom "x")) :=
  ⟨claim_C10.1 ['a'] ['a'] ['b'] ['b'] (by decide) (by decide)
      (by decide) (by decide) rfl,
   claim_C10.2 "x" "x" "u" "u" rfl⟩
